import Mathlib

set_option maxRecDepth 10000

/-!
# Verification of the competitor-selection and constraint-extraction core

A shallow embedding, in Lean 4, of the core functions of the
b2b-ai-content-generator repository (`utils.py` and the refactor-if-needed
block of `app.py`), together with theorems settling the specification's
claims about them.

External collaborators (the embedding provider, the page fetcher / HTML
parser, and the entity-analysis provider) are passed in as function
parameters, mirroring how the Python code receives `embed_model` and calls
`requests` / `textrazor`.  Python exceptions are modelled with `Option` /
`Except`: a `none` (or `.error`) result of an embedded function corresponds
to the Python function raising.
-/

namespace ContentGen

/-- A search-result record, as produced by the search provider.  The Python
code treats results as dicts and accesses `r["title"]`, `r.get("link")` and
`r.get("snippet", "")`; a missing key is modelled by `none`. -/
structure SearchResult where
  title : Option String
  link : Option String
  snippet : Option String
deriving DecidableEq, Repr, Inhabited

/-! ## Model of `urllib.parse.urlparse(url).netloc`

`is_docs_domain` in `utils.py` calls `urlparse(url).netloc`.  We model
CPython's `urlsplit` netloc extraction: tab/CR/LF bytes are removed, an
RFC-style scheme prefix is dropped, and the netloc is the text between a
leading `//` and the next `/`, `?` or `#` (empty when the URL has no `//`).
CPython raises `ValueError` ("Invalid IPv6 URL") when the netloc contains
an unbalanced bracket; this is modelled by returning `none`.  (The further
validation CPython applies to balanced bracketed hosts is not modelled:
balanced-bracket netlocs are returned as-is.) -/

/-- Characters CPython's `urlsplit` removes from the URL before parsing
(`_UNSAFE_URL_BYTES_TO_REMOVE = ["\t", "\r", "\n"]`). -/
def removeUnsafeBytes (s : String) : List Char :=
  s.data.filter (fun c => c ≠ '\t' && c ≠ '\r' && c ≠ '\n')

/-- Characters allowed in a URL scheme (`scheme_chars` in CPython's
`urllib.parse`): letters, digits, and `+`, `-`, `.`. -/
def isSchemeChar (c : Char) : Bool :=
  c.isAlphanum || c = '+' || c = '-' || c = '.'

/-- Drop a `scheme:` prefix exactly when CPython's `urlsplit` does: the
colon is not first, the first character is an ASCII letter, and everything
before the colon is a scheme character. -/
def dropScheme (cs : List Char) : List Char :=
  match cs.findIdx? (· = ':') with
  | none => cs
  | some i =>
    if 0 < i ∧ (cs.take i).all isSchemeChar ∧
        (cs.headD ' ').isAlpha then
      cs.drop (i + 1)
    else cs

/-- `urlparse(url).netloc`, returning `none` where CPython raises. -/
def urlparse_netloc (url : String) : Option String :=
  let cs := dropScheme (removeUnsafeBytes url)
  if cs.take 2 = ['/', '/'] then
    let netloc := (cs.drop 2).takeWhile (fun c => c ≠ '/' && c ≠ '?' && c ≠ '#')
    if ('[' ∈ netloc) ≠ (']' ∈ netloc) then
      none
    else
      some ⟨netloc⟩
  else
    some ""

/-- Python's `str.lower()` (character-wise lower-casing; ASCII letters are
what matters for the URLs and identifiers handled here). -/
def pyLower (s : String) : String :=
  ⟨s.data.map Char.toLower⟩

/-- Python's `str.upper()`. -/
def pyUpper (s : String) : String :=
  ⟨s.data.map Char.toUpper⟩

/-- Python's `s.startswith(pre)`. -/
def pyStartsWith (s pre : String) : Bool :=
  pre.data.isPrefixOf s.data

/-- `is_docs_domain` from `utils.py`: true when the URL's host starts with
"docs." (lower-cased); the bare `except` clause returns `True` when
`urlparse` raises. -/
def is_docs_domain (url : String) : Bool :=
  match urlparse_netloc url with
  | none => true
  | some netloc => pyStartsWith (pyLower netloc) "docs."

/-! ## The Relevance Selector (`select_similar`) -/

/-- The filter on line 71 of `utils.py`:
`r.get("link") and not is_docs_domain(r["link"])`.  A missing link and an
empty-string link are both falsy in Python. -/
def candidate_kept (r : SearchResult) : Bool :=
  match r.link with
  | none => false
  | some l => l ≠ "" && !is_docs_domain l

/-- The filtered candidate list of `select_similar`. -/
def filtered_results (results : List SearchResult) : List SearchResult :=
  results.filter candidate_kept

/-- The embedding text `r["title"] + " " + r.get("snippet", "")` of one
candidate; `none` models the `KeyError` raised when `title` is missing. -/
def candidate_text (r : SearchResult) : Option String :=
  match r.title with
  | none => none
  | some t => some (t ++ " " ++ r.snippet.getD "")

/-- The embedding text of a candidate whose title is present. -/
def result_text (r : SearchResult) : String :=
  r.title.getD "" ++ " " ++ r.snippet.getD ""

/-- The list comprehension `[r["title"] + " " + r.get("snippet", "") for r
in filtered]`; `none` models the `KeyError` raised at the first candidate
with no title. -/
def build_texts : List SearchResult → Option (List String)
  | [] => some []
  | r :: rs =>
    match candidate_text r, build_texts rs with
    | some t, some ts => some (t :: ts)
    | _, _ => none

/-- `select_similar` from `utils.py`.  `sim topic text` abstracts the
composition of the embedding provider and `cosine_similarity` (the
similarity score of the topic against one candidate text); it is a
parameter, as `embed_model` is in the source.  Python's `sorted(...,
key=lambda x: x[1], reverse=True)` is a stable descending sort, modelled
by `List.mergeSort` with the reflexive descending comparison on scores.
`none` models the function raising. -/
def select_similar (topic : String) (results : List SearchResult)
    (sim : String → String → ℚ) (k : Nat := 3) : Option (List SearchResult) :=
  let filtered := filtered_results results
  if filtered.isEmpty then
    some []
  else
    match build_texts filtered with
    | none => none
    | some texts =>
      let sims := texts.map (sim topic)
      let ranked := (filtered.zip sims).mergeSort
        (fun a b => decide (b.2 ≤ a.2))
      some ((ranked.take k).map Prod.fst)

/-- The similarity score the Selector attaches to the candidate at
position `i` of a list: the topic's similarity against that candidate's
title-plus-snippet text. -/
def sim_at (topic : String) (sim : String → String → ℚ)
    (l : List SearchResult) (i : Nat) : ℚ :=
  sim topic (result_text (l.getD i default))

/-! ## The Outline Extractor (`extract_headings`) -/

/-- One HTML heading tag as seen by BeautifulSoup's `find_all`: a tag name
(`"h1"`, `"h2"` or `"h3"`) and its text content. -/
structure HtmlTag where
  name : String
  text : String
deriving DecidableEq, Repr

/-- Whitespace as recognised by Python's `str.strip` / `str.split` and the
`\s` regex class (restricted to the ASCII whitespace characters). -/
def isPySpace (c : Char) : Bool :=
  c = ' ' || c = '\t' || c = '\n' || c = '\r' || c = '\x0b' || c = '\x0c'

/-- Python's `str.strip()`. -/
def pyStrip (s : String) : String :=
  ⟨((s.data.dropWhile isPySpace).reverse.dropWhile isPySpace).reverse⟩

/-- `extract_headings` from `utils.py`.  `fetch_parse` abstracts
`requests.get` + `raise_for_status` + BeautifulSoup + `find_all(["h1",
"h2", "h3"])`; `.error` covers every network or parse failure (the whole
body sits in `try`, whose handler returns `[]`).  For each tag,
`get_text(strip=True)` is modelled as stripping the tag's text; empty
texts are dropped, the tag name is upper-cased, and the output is capped
at `max_headings`. -/
def extract_headings (fetch_parse : String → Except String (List HtmlTag))
    (url : String) (max_headings : Nat := 150) : List (String × String) :=
  match fetch_parse url with
  | .error _ => []
  | .ok tags =>
    (tags.filterMap fun tag =>
      let txt := pyStrip tag.text
      if txt = "" then none else some (pyUpper tag.name, txt)).take max_headings

/-! ## The Entity Aggregator (`extract_entities`) -/

/-- One entity record returned by the entity-analysis provider, with its
canonical identifier and relevance score. -/
structure Entity where
  id : String
  relevance_score : ℚ
deriving DecidableEq, Repr

/-- The identifiers contributed by one page in `extract_entities`'s loop:
a missing `link` key (`KeyError` on `r["link"]`) and a failed
`analyze_url` call are both caught by the bare `except` and contribute
nothing; otherwise the entities at or above the relevance threshold are
kept and lower-cased. -/
def page_kept (analyze : String → Except String (List Entity))
    (min_relevance : ℚ) (r : SearchResult) : List String :=
  match r.link with
  | none => []
  | some l =>
    match analyze l with
    | .error _ => []
    | .ok es =>
      (es.filter (fun e => decide (min_relevance ≤ e.relevance_score))).map
        (fun e => pyLower e.id)

/-- `all_entities` in `extract_entities`: the concatenation, in input
order, of the kept (lower-cased) identifiers of all pages. -/
def kept_entities (analyze : String → Except String (List Entity))
    (urls : List SearchResult) (min_relevance : ℚ) : List String :=
  urls.flatMap (page_kept analyze min_relevance)

/-- The unique values of a list in order of first occurrence, skipping
values already in `seen`. -/
def uniqueAux (seen : List String) : List String → List String
  | [] => []
  | x :: xs =>
    if x ∈ seen then uniqueAux seen xs
    else x :: uniqueAux (x :: seen) xs

/-- The unique values of a list in order of first occurrence (the index of
the hash-table count underlying `pandas.Series.value_counts`). -/
def unique_first (l : List String) : List String :=
  uniqueAux [] l

/-- Model of `pd.Series(l).value_counts().index`: the unique values of
`l`, sorted by descending occurrence count with a stable sort, so that
values with equal counts stay in order of first occurrence (the
documented, deterministic ordering of modern pandas). -/
def value_counts_index (l : List String) : List String :=
  (unique_first l).mergeSort (fun a b => decide (l.count b ≤ l.count a))

/-- `extract_entities` from `utils.py`.  `analyze` abstracts the TextRazor
client's `analyze_url` (`.error` models a raised exception).  The final
line `entity_freq.head(top_n).index.tolist()` is the first `top_n` keys of
`value_counts`. -/
def extract_entities (analyze : String → Except String (List Entity))
    (urls : List SearchResult) (min_relevance : ℚ := 0.2)
    (top_n : Nat := 15) : List String :=
  let all_entities := kept_entities analyze urls min_relevance
  if all_entities.isEmpty then []
  else (value_counts_index all_entities).take top_n

/-! ## The Long-Paragraph Gate (`has_long_paragraph`)

`has_long_paragraph` splits the Markdown with
`re.split(r"\n\s*\n", markdown_text)`.  The pattern matches, leftmost
first, a newline followed greedily by whitespace up to a final newline;
`splitBlankAux` implements exactly this: at each `'\n'` it looks for the
last `'\n'` inside the following maximal whitespace run, and if one
exists, the whole stretch up to and including it is a separator. -/

/-- Length of the separator continuation inside `rest` (the part matched
by `\s*\n` after the initial `'\n'`): the last `'\n'` of the maximal
whitespace prefix of `rest`, counted inclusively; `none` when the regex
cannot complete a match here. -/
def sepLen (rest : List Char) : Option Nat :=
  let run := rest.takeWhile isPySpace
  match run.reverse.findIdx? (· = '\n') with
  | none => none
  | some j => some (run.length - j)

/-- Splitter for `re.split(r"\n\s*\n", s)` over the character list.  Each
step consumes at least one character and decreases `fuel` by exactly one,
so with `fuel ≥ cs.length` the fuel never runs out; the fuel makes the
recursion structural. -/
def splitBlankAux : Nat → List Char → List (List Char)
  | _, [] => [[]]
  | 0, cs => [cs]
  | fuel + 1, c :: rest =>
    if c = '\n' then
      match sepLen rest with
      | some n => [] :: splitBlankAux fuel (rest.drop n)
      | none => (splitBlankAux fuel rest).modifyHead (c :: ·)
    else (splitBlankAux fuel rest).modifyHead (c :: ·)

/-- `re.split(r"\n\s*\n", markdown_text)`. -/
def re_split_blank (s : String) : List String :=
  (splitBlankAux s.data.length s.data).map (⟨·⟩)

/-- Python's `str.split()` (split on whitespace runs, no empty tokens);
`cur` is the reversed current token. -/
def pySplitAux : List Char → List Char → List (List Char)
  | [], cur => if cur.isEmpty then [] else [cur.reverse]
  | c :: rest, cur =>
    if isPySpace c then
      if cur.isEmpty then pySplitAux rest []
      else cur.reverse :: pySplitAux rest []
    else pySplitAux rest (c :: cur)

/-- Python's `s.split()`. -/
def pySplit (s : String) : List String :=
  (pySplitAux s.data []).map (⟨·⟩)

/-- `has_long_paragraph` from `utils.py`: split into paragraphs, skip
those whose stripped text starts with `#`, and report whether any
remaining paragraph has more than `word_limit` whitespace-delimited
words (the early-returning `for` loop is `List.any`). -/
def has_long_paragraph (markdown_text : String) (word_limit : Nat := 130) : Bool :=
  (re_split_blank markdown_text).any fun p =>
    !pyStartsWith (pyStrip p) "#" && decide ((pySplit p).length > word_limit)

/-! ## The Style Rule Compiler (`get_style_rules`) -/

/-- Python's `sep.join(strings)`. -/
def pyJoin (sep : String) : List String → String
  | [] => ""
  | [x] => x
  | x :: xs => x ++ sep ++ pyJoin sep xs

/-- `get_style_rules` from `utils.py`: the fixed rule template with the
five free-text inputs and the comma-space-joined banned words
interpolated, transcribed from the source f-string. -/
def get_style_rules (tonality context theme audience_persona : String)
    (banned_words : List String) : String :=
  let banned_words_str := pyJoin ", " banned_words
  "\nGLOBAL CONTENT RULES\n- One H1 only\n- Each H2 starts with exactly ONE short framing paragraph (60–90 words)\n- H2 must never start with H3, bullets, tables, or code\n- Under each H2: 2–5 H3 subsections\n- Each H3: max 2 paragraphs, max ~120 words per paragraph\n- Each H2 section max 3 paragraphs total (excluding tables)\n\nBULLETS\n- Required for lists, criteria, features, steps, comparisons\n- Never bullet-only sections\n\nTABLES\n- Required when explaining comparisons, components, mappings, limits, configurations\n- Use Markdown tables (not code blocks)\n\nFAQ\n- Non-opinionated\n- Max 3 short lines per answer\n- No bullets or tables\n\nFACTUAL ACCURACY\n- Do not invent numbers, limits, defaults, or guarantees\n- If specifics vary, qualify with \"depends on configuration / region / setup\"\n- Prefer neutral wording (\"is used for\", \"typically\", \"commonly\")\n- Avoid marketing or subjective claims\n\nBANNED WORDS\n"
    ++ banned_words_str
    ++ "\n\nTone: " ++ tonality
    ++ "\nContext: " ++ context
    ++ "\nTheme: " ++ theme
    ++ "\nAudience: " ++ audience_persona
    ++ "\n"

/-- `needle` occurs verbatim (as a contiguous substring) in `hay`. -/
def contains_sub (needle hay : String) : Prop :=
  ∃ pre post : List Char, hay.data = pre ++ needle.data ++ post

/-! ## The refactor-if-needed block of `app.py` (lines 272-284)

```
if has_long_paragraph(article):
    refactor_prompt = create_refactor_prompt(article)
    article = call_llm(refactor_prompt, client, model_choice)
    ...
polish_prompt = create_polish_prompt(article)
article = call_llm(polish_prompt, client, model_choice)
```

`call_refactor` and `call_polish` abstract the two `call_llm` invocations
(prompt building composed with the generation service).  The `Nat`
component instruments the number of refactor passes taken. -/

/-- The conditional refactor pass: one extra generation call exactly when
the gate fires, with the pass count recorded. -/
def refactor_if_needed (call_refactor : String → String)
    (article : String) : String × Nat :=
  if has_long_paragraph article then (call_refactor article, 1)
  else (article, 0)

/-- The tail of the generation pipeline: the conditional refactor pass
followed unconditionally by the polish pass.  The gate is never consulted
again after the refactor. -/
def finalize_article (call_refactor call_polish : String → String)
    (article : String) : String × Nat :=
  let r := refactor_if_needed call_refactor article
  (call_polish r.1, r.2)

/-! ## Concrete fixtures used by witnesses and scenarios -/

/-- A constant similarity oracle (every candidate scores 0). -/
def simZero : String → String → ℚ := fun _ _ => 0

/-- An article that is a single 131-word paragraph (over the 130 ceiling). -/
def long_article : String :=
  String.join (List.replicate 131 "word ")

/-- A five-result list: one docs-subdomain link, one missing link, one
empty link, and two ordinary candidates. -/
def rs_demo : List SearchResult :=
  [⟨some "A", some "https://a.com/1", some "alpha"⟩,
   ⟨some "B", some "https://docs.b.com/x", none⟩,
   ⟨some "C", some "https://c.com/2", none⟩,
   ⟨some "D", none, some "d"⟩,
   ⟨some "E", some "", none⟩]

/-- An entity-analysis oracle for the two-page aggregation scenario: page
`u1` yields kafka / Kafka / flink, page `u2` yields kafka, every entity
scoring 1 (above any default threshold); other URLs fail. -/
def an_demo : String → Except String (List Entity) := fun u =>
  if u = "u1" then .ok [⟨"kafka", 1⟩, ⟨"Kafka", 1⟩, ⟨"flink", 1⟩]
  else if u = "u2" then .ok [⟨"kafka", 1⟩]
  else .error "analysis failed"

/-- The two pages of the aggregation scenario. -/
def pages_demo : List SearchResult :=
  [⟨some "P1", some "u1", none⟩, ⟨some "P2", some "u2", none⟩]

/-! # Helper lemmas -/

theorem contains_sub_refl (s : String) : contains_sub s s :=
  ⟨[], [], by simp⟩

theorem contains_sub_append_left (s : String) {w t : String}
    (h : contains_sub w t) : contains_sub w (s ++ t) := by
  obtain ⟨p, q, hpq⟩ := h
  exact ⟨s.data ++ p, q, by simp [hpq]⟩

theorem contains_sub_append_right (t : String) {w s : String}
    (h : contains_sub w s) : contains_sub w (s ++ t) := by
  obtain ⟨p, q, hpq⟩ := h
  exact ⟨p, q ++ t.data, by simp [hpq]⟩

theorem contains_sub_trans {a b c : String} (h1 : contains_sub a b)
    (h2 : contains_sub b c) : contains_sub a c := by
  obtain ⟨p, q, hpq⟩ := h1
  obtain ⟨p2, q2, h2eq⟩ := h2
  exact ⟨p2 ++ p, q ++ q2, by simp [h2eq, hpq]⟩

theorem contains_sub_pyJoin {w : String} (sep : String) :
    ∀ {bw : List String}, w ∈ bw → contains_sub w (pyJoin sep bw)
  | [], h => absurd h (List.not_mem_nil _)
  | [x], h => by
    rcases List.mem_singleton.mp h with rfl
    exact contains_sub_refl w
  | x :: y :: ys, h => by
    rcases List.mem_cons.mp h with rfl | h2
    · refine ⟨[], (sep ++ pyJoin sep (y :: ys)).data, ?_⟩
      simp [pyJoin]
    · exact contains_sub_append_left (x ++ sep) (contains_sub_pyJoin sep h2)

theorem mergeSort_pair {α : Type} (le : α → α → Bool) (a b : α) :
    [a, b].mergeSort le = if le a b then [a, b] else [b, a] := by
  rw [List.mergeSort]
  simp only [List.splitInTwo_fst, List.splitInTwo_snd, List.length_cons,
    List.length_nil, List.take_succ_cons, List.take_zero, List.drop_succ_cons,
    List.drop_zero, List.mergeSort_singleton]
  by_cases h : le a b <;> simp [List.merge, h]

theorem mem_page_kept {analyze : String → Except String (List Entity)}
    {τ : ℚ} {r : SearchResult} {e : String} :
    e ∈ page_kept analyze τ r ↔
      ∃ l, r.link = some l ∧ ∃ es, analyze l = .ok es ∧
        ∃ ent ∈ es, τ ≤ ent.relevance_score ∧ pyLower ent.id = e := by
  unfold page_kept
  cases hl : r.link with
  | none => simp
  | some l =>
    cases ha : analyze l with
    | error err => simp [ha]
    | ok es => simp [ha, List.mem_filter, and_assoc]

theorem count_kept_entities (analyze : String → Except String (List Entity))
    (τ : ℚ) (e : String) :
    ∀ urls : List SearchResult,
      (kept_entities analyze urls τ).count e =
        (urls.map fun r => (page_kept analyze τ r).count e).sum
  | [] => by simp [kept_entities]
  | r :: urls => by
    have ih := count_kept_entities analyze τ e urls
    simp only [kept_entities] at ih ⊢
    simp [List.flatMap_cons, List.count_append, ih]

theorem enumLE_dest {α : Type} {le : α → α → Bool} {x y : Nat × α}
    (h : List.enumLE le x y = true) :
    le x.2 y.2 = true ∧ (le y.2 x.2 = true → x.1 ≤ y.1) := by
  unfold List.enumLE at h
  by_cases h1 : le x.2 y.2 <;> by_cases h2 : le y.2 x.2 <;>
    simp [h1, h2] at h ⊢
  exact h

/-- Characterisation of a stable descending sort by a key function.
`mergeSort` with the reflexive comparison `decide (key b ≤ key a)` is
Python's `sorted(..., key=..., reverse=True)`: the first `k` elements of
the result are the elements at positions `idxs` of the input, where `idxs`
is strictly ordered by (key descending, position ascending), and every
position left out ranks (weakly) after every position taken. -/
theorem mergeSort_desc_take_spec {α β : Type} [Inhabited α] [LinearOrder β]
    (key : α → β) (l : List α) (k : Nat) :
    ∃ idxs : List Nat,
      (l.mergeSort fun a b => decide (key b ≤ key a)).take k =
        idxs.map (fun i => l.getD i default) ∧
      (∀ i ∈ idxs, i < l.length) ∧
      idxs.Pairwise (fun i j =>
        key (l.getD j default) ≤ key (l.getD i default) ∧
        (key (l.getD i default) ≤ key (l.getD j default) → i < j)) ∧
      ∀ i, i < l.length → i ∉ idxs → ∀ j ∈ idxs,
        key (l.getD i default) ≤ key (l.getD j default) ∧
        (key (l.getD j default) ≤ key (l.getD i default) → j < i) := by
  set le : α → α → Bool := fun a b => decide (key b ≤ key a) with hle
  have htrans : ∀ a b c : α, le a b → le b c → le a c := by
    intro a b c hab hbc
    simp only [hle, decide_eq_true_eq] at hab hbc ⊢
    exact le_trans hbc hab
  have htotal : ∀ a b : α, le a b || le b a := by
    intro a b
    simp only [hle, Bool.or_eq_true, decide_eq_true_eq]
    exact le_total (key b) (key a)
  have htrans' := fun x y z => List.enumLE_trans htrans x y z
  have htotal' := fun x y => List.enumLE_total htotal x y
  set se := (l.enum).mergeSort (List.enumLE le) with hse
  have hsnd : se.map (·.2) = l.mergeSort le := List.mergeSort_enum
  have hpw : se.Pairwise (fun x y => List.enumLE le x y = true) :=
    List.sorted_mergeSort htrans' htotal' (l.enum)
  have hperm : List.Perm se l.enum := List.mergeSort_perm _ _
  have hnodup : (se.map Prod.fst).Nodup := by
    have h1 : List.Perm (se.map Prod.fst) (l.enum.map Prod.fst) :=
      hperm.map _
    rw [List.enum_map_fst] at h1
    exact h1.symm.nodup (List.nodup_range _)
  have hne : se.Pairwise (fun x y => x.1 ≠ y.1) := List.pairwise_map.mp hnodup
  have hall : se.Pairwise (fun x y => List.enumLE le x y = true ∧ x.1 ≠ y.1) :=
    hpw.and hne
  have hmem : ∀ x ∈ se, x.1 < l.length ∧ x.2 = l.getD x.1 default := by
    intro x hx
    have hxe : x ∈ l.enum := List.mem_mergeSort.mp hx
    refine ⟨List.fst_lt_of_mem_enum hxe, ?_⟩
    have h2 := List.snd_eq_of_mem_enum hxe
    rw [h2, List.getD_eq_getElem]
  refine ⟨(se.take k).map Prod.fst, ?_, ?_, ?_, ?_⟩
  · rw [← hsnd, ← List.map_take, List.map_map]
    apply List.map_congr_left
    intro x hx
    have h2 := (hmem x (List.mem_of_mem_take hx)).2
    simpa [Function.comp] using h2
  · intro i hi
    obtain ⟨x, hx, rfl⟩ := List.mem_map.mp hi
    exact (hmem x (List.mem_of_mem_take hx)).1
  · have htk := hall.sublist (List.take_sublist k se)
    rw [List.pairwise_map]
    refine htk.imp_of_mem ?_
    intro x y hxm hym hxy
    have hx := hmem x (List.mem_of_mem_take hxm)
    have hy := hmem y (List.mem_of_mem_take hym)
    obtain ⟨henum, hne2⟩ := hxy
    obtain ⟨hle1, hle2⟩ := enumLE_dest henum
    constructor
    · rw [← hx.2, ← hy.2]
      simpa [hle, decide_eq_true_eq] using hle1
    · intro hk2
      have hyx : le y.2 x.2 = true := by
        simp only [hle, decide_eq_true_eq]
        rw [hx.2, hy.2]
        exact hk2
      exact lt_of_le_of_ne (hle2 hyx) hne2
  · intro i hi hnot j hj
    obtain ⟨x, hxtk, rfl⟩ := List.mem_map.mp hj
    have hienum : (i, l.getD i default) ∈ l.enum := by
      rw [List.mem_enum_iff_getElem?]
      simp [List.getD_eq_getElem l default hi, List.getElem?_eq_getElem hi]
    have hise : (i, l.getD i default) ∈ se := List.mem_mergeSort.mpr hienum
    have hsplit := List.take_append_drop k se
    have hpwapp : ∀ x ∈ se.take k, ∀ y ∈ se.drop k,
        (List.enumLE le x y = true ∧ x.1 ≠ y.1) := by
      have hall2 := hall
      rw [← hsplit] at hall2
      exact (List.pairwise_append.mp hall2).2.2
    have hdrop : (i, l.getD i default) ∈ se.drop k := by
      rcases List.mem_append.mp (by rw [hsplit]; exact hise) with h1 | h2
      · exact absurd (List.mem_map.mpr ⟨_, h1, rfl⟩) hnot
      · exact h2
    have hr := hpwapp x hxtk _ hdrop
    have hx := hmem x (List.mem_of_mem_take hxtk)
    obtain ⟨henum, hne2⟩ := hr
    obtain ⟨hle1, hle2⟩ := enumLE_dest henum
    constructor
    · simp only [hle, decide_eq_true_eq] at hle1
      rwa [hx.2] at hle1
    · intro hk2
      have hyx : le (l.getD i default) x.2 = true := by
        simp only [hle, decide_eq_true_eq]
        rw [hx.2]
        exact hk2
      exact lt_of_le_of_ne (hle2 hyx) hne2

theorem mem_uniqueAux {a : String} :
    ∀ (l seen : List String), a ∈ uniqueAux seen l → a ∈ l ∧ a ∉ seen
  | [], seen, h => absurd h (List.not_mem_nil _)
  | x :: xs, seen, h => by
    by_cases hx : x ∈ seen
    · rw [uniqueAux, if_pos hx] at h
      obtain ⟨h1, h2⟩ := mem_uniqueAux xs seen h
      exact ⟨List.mem_cons_of_mem _ h1, h2⟩
    · rw [uniqueAux, if_neg hx] at h
      rcases List.mem_cons.mp h with rfl | h2
      · exact ⟨List.mem_cons_self _ _, hx⟩
      · obtain ⟨h1, h2⟩ := mem_uniqueAux xs (x :: seen) h2
        exact ⟨List.mem_cons_of_mem _ h1,
          fun hs => h2 (List.mem_cons_of_mem _ hs)⟩

/-- `uniqueAux` lists elements in order of first occurrence: its output is
strictly increasing in `List.indexOf` of the scanned list. -/
theorem pairwise_indexOf_uniqueAux :
    ∀ (l seen : List String),
      (uniqueAux seen l).Pairwise (fun a b => l.indexOf a < l.indexOf b)
  | [], _ => List.Pairwise.nil
  | x :: xs, seen => by
    by_cases hx : x ∈ seen
    · rw [uniqueAux, if_pos hx]
      refine (pairwise_indexOf_uniqueAux xs seen).imp_of_mem ?_
      intro a b ha hb hab
      have ha2 := mem_uniqueAux xs seen ha
      have hb2 := mem_uniqueAux xs seen hb
      have hax : x ≠ a := fun h => ha2.2 (h ▸ hx)
      have hbx : x ≠ b := fun h => hb2.2 (h ▸ hx)
      rw [List.indexOf_cons_ne _ hax, List.indexOf_cons_ne _ hbx]
      exact Nat.succ_lt_succ hab
    · rw [uniqueAux, if_neg hx]
      rw [List.pairwise_cons]
      constructor
      · intro b hb
        have hb2 := mem_uniqueAux xs (x :: seen) hb
        have hbx : x ≠ b := fun h => hb2.2 (h ▸ List.mem_cons_self x seen)
        rw [List.indexOf_cons_self, List.indexOf_cons_ne _ hbx]
        exact Nat.succ_pos _
      · refine (pairwise_indexOf_uniqueAux xs (x :: seen)).imp_of_mem ?_
        intro a b ha hb hab
        have ha2 := mem_uniqueAux xs (x :: seen) ha
        have hb2 := mem_uniqueAux xs (x :: seen) hb
        have hax : x ≠ a := fun h => ha2.2 (h ▸ List.mem_cons_self x seen)
        have hbx : x ≠ b := fun h => hb2.2 (h ▸ List.mem_cons_self x seen)
        rw [List.indexOf_cons_ne _ hax, List.indexOf_cons_ne _ hbx]
        exact Nat.succ_lt_succ hab

theorem build_texts_eq_map :
    ∀ {l : List SearchResult}, (∀ r ∈ l, r.title.isSome) →
      build_texts l = some (l.map result_text)
  | [], _ => rfl
  | r :: rs, h => by
    have hr := h r (List.mem_cons_self _ _)
    have ht := build_texts_eq_map (fun x hx => h x (List.mem_cons_of_mem _ hx))
    obtain ⟨t, hto⟩ := Option.isSome_iff_exists.mp hr
    rw [List.map_cons, build_texts, ht]
    simp [candidate_text, hto, result_text]

theorem candidate_kept_iff {r : SearchResult} :
    candidate_kept r = true ↔
      ∃ l, r.link = some l ∧ l ≠ "" ∧ is_docs_domain l = false := by
  unfold candidate_kept
  cases hl : r.link with
  | none => simp
  | some l => simp

/-! # Claim theorems -/

/-- C2: the Entity Aggregator returns at most `N` identifiers, in
non-increasing order of aggregate occurrence count over the concatenated
kept-identifier multiset, with equal counts ordered by first occurrence in
that multiset. -/
theorem extract_entities_rank_spec
    (analyze : String → Except String (List Entity))
    (urls : List SearchResult) (τ : ℚ) (N : Nat) :
    (extract_entities analyze urls τ N).length ≤ N ∧
    (extract_entities analyze urls τ N).Pairwise (fun a b =>
      (kept_entities analyze urls τ).count b ≤
        (kept_entities analyze urls τ).count a ∧
      ((kept_entities analyze urls τ).count a =
          (kept_entities analyze urls τ).count b →
        (kept_entities analyze urls τ).indexOf a <
          (kept_entities analyze urls τ).indexOf b)) := by
  set ents := kept_entities analyze urls τ with hents
  rw [extract_entities]
  by_cases he : ents.isEmpty
  · rw [← hents, if_pos he]
    exact ⟨Nat.zero_le _, List.Pairwise.nil⟩
  · rw [← hents, if_neg he, value_counts_index]
    obtain ⟨idxs, h1, h2, h3, -⟩ :=
      mergeSort_desc_take_spec (fun s => ents.count s) (unique_first ents) N
    constructor
    · exact List.length_take_le _ _
    · rw [h1, List.pairwise_map]
      refine h3.imp_of_mem ?_
      intro i j hi hj hij
      have hib := h2 i hi
      have hjb := h2 j hj
      obtain ⟨hc, ht⟩ := hij
      refine ⟨hc, fun heq => ?_⟩
      have hlt : i < j := ht (le_of_eq heq)
      have hpw := pairwise_indexOf_uniqueAux ents []
      have h5 := (List.pairwise_iff_getElem.mp hpw) i j hib hjb hlt
      rw [List.getD_eq_getElem _ _ hib, List.getD_eq_getElem _ _ hjb]
      exact h5

/-- C3: the Long-Paragraph Gate returns true iff some blank-line-delimited
paragraph whose stripped text does not start with `#` has strictly more
than `word_limit` whitespace-delimited words; the two Markdown scenarios
from the spec evaluate to true (150-word paragraph) and false (100-word
paragraph, heading exempt) at the default ceiling 130. -/
theorem has_long_paragraph_spec :
    (∀ (md : String) (w : Nat),
      has_long_paragraph md w = true ↔
        ∃ p ∈ re_split_blank md,
          pyStartsWith (pyStrip p) "#" = false ∧ w < (pySplit p).length) ∧
    has_long_paragraph
      ("# Title\n\nShort para.\n\n" ++ String.join (List.replicate 150 "word ")) = true ∧
    has_long_paragraph ("## H2\n\n" ++ String.join (List.replicate 100 "word ")) = false := by
  refine ⟨fun md w => ?_, by decide, by decide⟩
  simp [has_long_paragraph, List.any_eq_true]

/-- C6: in the pipeline tail, a gate-positive article gets exactly one
refactor pass, whose output goes to the polish stage without being
re-checked by the gate; no run ever takes more than one refactor pass. -/
theorem refactor_gate_one_shot (call_refactor call_polish : String → String)
    (article : String) (h : has_long_paragraph article = true) :
    finalize_article call_refactor call_polish article =
      (call_polish (call_refactor article), 1) ∧
    ∀ a : String, (finalize_article call_refactor call_polish a).2 ≤ 1 := by
  refine ⟨by simp [finalize_article, refactor_if_needed, h], fun a => ?_⟩
  by_cases ha : has_long_paragraph a <;>
    simp [finalize_article, refactor_if_needed, ha]

theorem refactor_gate_one_shot_witness :
    finalize_article (fun _ => "refactored") (fun s => s ++ " polished")
      long_article = ("refactored polished", 1) ∧
    ∀ a : String,
      (finalize_article (fun _ => "refactored") (fun s => s ++ " polished") a).2 ≤ 1 :=
  refactor_gate_one_shot (fun _ => "refactored") (fun s => s ++ " polished")
    long_article (by decide)

/-- C7: the Outline Extractor is total, and any failure of the fetch/parse
collaborator (timeout, non-2xx status, malformed markup, invalid URL)
makes it return the empty list instead of propagating the error. -/
theorem extract_headings_fail_empty
    (fetch_parse : String → Except String (List HtmlTag)) (url : String)
    (max_headings : Nat) (e : String) (h : fetch_parse url = .error e) :
    extract_headings fetch_parse url max_headings = [] := by
  simp [extract_headings, h]

theorem extract_headings_fail_empty_witness :
    extract_headings (fun _ => .error "timeout") "::not a url::" 150 = [] :=
  extract_headings_fail_empty (fun _ => .error "timeout") "::not a url::"
    150 "timeout" rfl

/-- C8: the Style Rule Compiler is deterministic (equal inputs give equal
output), and the banned words appear verbatim in the output, joined with
the fixed comma-space delimiter. -/
theorem get_style_rules_spec (t c th a t2 c2 th2 a2 : String)
    (bw bw2 : List String) (ht : t = t2) (hc : c = c2) (hth : th = th2)
    (ha : a = a2) (hbw : bw = bw2) :
    get_style_rules t c th a bw = get_style_rules t2 c2 th2 a2 bw2 ∧
    contains_sub (pyJoin ", " bw) (get_style_rules t c th a bw) ∧
    ∀ w ∈ bw, contains_sub w (get_style_rules t c th a bw) := by
  subst ht hc hth ha hbw
  have hjoin : contains_sub (pyJoin ", " bw) (get_style_rules t c th a bw) := by
    unfold get_style_rules
    exact contains_sub_append_right _ (contains_sub_append_right _
      (contains_sub_append_right _ (contains_sub_append_right _
      (contains_sub_append_right _ (contains_sub_append_right _
      (contains_sub_append_right _ (contains_sub_append_right _
      (contains_sub_append_right _
        (contains_sub_append_left _ (contains_sub_refl _))))))))))
  exact ⟨rfl, hjoin, fun w hw =>
    contains_sub_trans (contains_sub_pyJoin ", " hw) hjoin⟩

theorem get_style_rules_spec_witness :
    get_style_rules "Clear" "Data engineers" "Clarity" "Practitioners"
        ["seamless", "synergy"] =
      get_style_rules "Clear" "Data engineers" "Clarity" "Practitioners"
        ["seamless", "synergy"] ∧
    contains_sub (pyJoin ", " ["seamless", "synergy"])
      (get_style_rules "Clear" "Data engineers" "Clarity" "Practitioners"
        ["seamless", "synergy"]) ∧
    ∀ w ∈ ["seamless", "synergy"],
      contains_sub w
        (get_style_rules "Clear" "Data engineers" "Clarity" "Practitioners"
          ["seamless", "synergy"]) :=
  get_style_rules_spec "Clear" "Data engineers" "Clarity" "Practitioners"
    "Clear" "Data engineers" "Clarity" "Practitioners"
    ["seamless", "synergy"] ["seamless", "synergy"] rfl rfl rfl rfl rfl

/-- C1 (counterexample to the unconditional claim): for one concrete
result list — a single record with a valid non-docs link but no title —
the Relevance Selector raises (`none`) instead of returning a (possibly
truncated, sorted) list, so the claim does not hold for *every* list of
search results. -/
theorem select_similar_spec_cex :
    select_similar "topic"
      [⟨none, some "https://cex.example.org/p", none⟩] simZero 2 = none := by
  have h1 : filtered_results
      [(⟨none, some "https://cex.example.org/p", none⟩ : SearchResult)] =
      [⟨none, some "https://cex.example.org/p", none⟩] := by decide
  have h2 : build_texts
      [(⟨none, some "https://cex.example.org/p", none⟩ : SearchResult)] =
      none := by decide
  simp [select_similar, h1, h2]

/-- C1: with every filtered candidate carrying a title, the Relevance
Selector returns (no exception) a list of at most `min k |filtered|`
candidates — the elements of the filtered list at positions `idxs`, where
`idxs` is strictly ordered by similarity descending with ties broken by
original input position, and every candidate left out ranks weakly after
every candidate taken (the output is the first `k` of the full stable
descending sort). -/
theorem select_similar_spec (topic : String) (results : List SearchResult)
    (sim : String → String → ℚ) (k : Nat)
    (h : ∀ r ∈ filtered_results results, r.title.isSome) :
    ∃ out, select_similar topic results sim k = some out ∧
      out.length ≤ min k (filtered_results results).length ∧
      ∃ idxs : List Nat,
        out = idxs.map (fun i => (filtered_results results).getD i default) ∧
        (∀ i ∈ idxs, i < (filtered_results results).length) ∧
        idxs.Pairwise (fun i j =>
          sim_at topic sim (filtered_results results) j ≤
            sim_at topic sim (filtered_results results) i ∧
          (sim_at topic sim (filtered_results results) i ≤
              sim_at topic sim (filtered_results results) j → i < j)) ∧
        ∀ i, i < (filtered_results results).length → i ∉ idxs →
          ∀ j ∈ idxs,
            sim_at topic sim (filtered_results results) i ≤
              sim_at topic sim (filtered_results results) j ∧
            (sim_at topic sim (filtered_results results) j ≤
                sim_at topic sim (filtered_results results) i → j < i) := by
  by_cases he : (filtered_results results).isEmpty
  · refine ⟨[], ?_, by simp, [], by simp, by simp, List.Pairwise.nil, ?_⟩
    · simp only [select_similar, if_pos he]
    · intro i hi
      rw [List.isEmpty_iff.mp he] at hi
      simp at hi
  · have hbt : build_texts (filtered_results results) =
        some ((filtered_results results).map result_text) :=
      build_texts_eq_map h
    set fr := filtered_results results with hfr
    have hplen : (fr.zip ((fr.map result_text).map (sim topic))).length =
        fr.length := by simp
    have hpget : ∀ i, i < fr.length →
        (fr.zip ((fr.map result_text).map (sim topic))).getD i default =
          (fr.getD i default, sim_at topic sim fr i) := by
      intro i hi
      have hip : i < (fr.zip ((fr.map result_text).map (sim topic))).length := by
        rw [hplen]; exact hi
      rw [List.getD_eq_getElem _ _ hip, List.getD_eq_getElem _ _ hi,
        List.getElem_zip]
      refine Prod.ext rfl ?_
      rw [List.getElem_map, List.getElem_map]
      unfold sim_at
      rw [List.getD_eq_getElem _ _ hi]
    obtain ⟨idxs, h1, h2, h3, h4⟩ :=
      mergeSort_desc_take_spec (Prod.snd : SearchResult × ℚ → ℚ)
        (fr.zip ((fr.map result_text).map (sim topic))) k
    refine ⟨(((fr.zip ((fr.map result_text).map (sim topic))).mergeSort
        fun a b => decide (b.2 ≤ a.2)).take k).map Prod.fst,
      ?_, ?_, idxs, ?_, ?_, ?_, ?_⟩
    · simp only [select_similar, if_neg he, hbt, ← hfr]
    · rw [List.length_map, List.length_take, List.length_mergeSort, hplen]
    · rw [h1, List.map_map]
      apply List.map_congr_left
      intro i hi
      have hib : i < fr.length := by rw [← hplen]; exact h2 i hi
      simp only [Function.comp_apply]
      rw [hpget i hib]
    · intro i hi
      rw [← hplen]
      exact h2 i hi
    · refine h3.imp_of_mem ?_
      intro i j hi hj hij
      have hib : i < fr.length := by rw [← hplen]; exact h2 i hi
      have hjb : j < fr.length := by rw [← hplen]; exact h2 j hj
      rw [hpget i hib, hpget j hjb] at hij
      exact hij
    · intro i hi hnot j hj
      have hip : i < (fr.zip ((fr.map result_text).map (sim topic))).length := by
        rw [hplen]; exact hi
      have hjb : j < fr.length := by rw [← hplen]; exact h2 j hj
      have h5 := h4 i hip hnot j hj
      rw [hpget i hi, hpget j hjb] at h5
      exact h5

theorem select_similar_spec_witness :
    ∃ out, select_similar "streaming analytics" rs_demo simZero 3 = some out ∧
      out.length ≤ min 3 (filtered_results rs_demo).length ∧
      ∃ idxs : List Nat,
        out = idxs.map (fun i => (filtered_results rs_demo).getD i default) ∧
        (∀ i ∈ idxs, i < (filtered_results rs_demo).length) ∧
        idxs.Pairwise (fun i j =>
          sim_at "streaming analytics" simZero (filtered_results rs_demo) j ≤
            sim_at "streaming analytics" simZero (filtered_results rs_demo) i ∧
          (sim_at "streaming analytics" simZero (filtered_results rs_demo) i ≤
              sim_at "streaming analytics" simZero (filtered_results rs_demo) j →
            i < j)) ∧
        ∀ i, i < (filtered_results rs_demo).length → i ∉ idxs →
          ∀ j ∈ idxs,
            sim_at "streaming analytics" simZero (filtered_results rs_demo) i ≤
              sim_at "streaming analytics" simZero (filtered_results rs_demo) j ∧
            (sim_at "streaming analytics" simZero (filtered_results rs_demo) j ≤
                sim_at "streaming analytics" simZero (filtered_results rs_demo) i →
              j < i) :=
  select_similar_spec "streaming analytics" rs_demo simZero 3 (by decide)

/-- C4: whatever the Selector returns came through the filter: every
returned result has a link that is non-empty and not a docs-subdomain
host; a result whose link cannot be parsed (`is_docs_domain` catches the
`urlparse` failure) is dropped before ranking rather than raising. -/
theorem select_similar_filter_spec (topic : String)
    (results : List SearchResult) (sim : String → String → ℚ) (k : Nat)
    (out : List SearchResult)
    (h : select_similar topic results sim k = some out) :
    (∀ r ∈ out, r ∈ filtered_results results ∧
      ∃ l, r.link = some l ∧ l ≠ "" ∧ is_docs_domain l = false) ∧
    select_similar topic [⟨some "T", some "http://[bad", none⟩] sim k =
      some [] := by
  constructor
  · intro r hr
    simp only [select_similar] at h
    split at h
    · obtain rfl := Option.some.inj h
      exact absurd hr (List.not_mem_nil r)
    · split at h
      · exact absurd h (by simp)
      · obtain rfl := Option.some.inj h
        obtain ⟨p, hp, rfl⟩ := List.mem_map.mp hr
        have hp2 : p ∈ (filtered_results results).zip _ :=
          List.mem_mergeSort.mp (List.mem_of_mem_take hp)
        have hp3 := (List.of_mem_zip hp2).1
        have hp4 := List.mem_filter.mp hp3
        exact ⟨hp3, candidate_kept_iff.mp hp4.2⟩
  · have hf : filtered_results
        [(⟨some "T", some "http://[bad", none⟩ : SearchResult)] = [] := by
      decide
    simp [select_similar, hf]

theorem select_similar_filter_spec_witness :
    (∀ r ∈ [(⟨some "C", some "https://c.com/2", none⟩ : SearchResult)],
      r ∈ filtered_results
          [⟨some "B", some "https://docs.b.com/x", none⟩,
           ⟨some "C", some "https://c.com/2", none⟩] ∧
      ∃ l, r.link = some l ∧ l ≠ "" ∧ is_docs_domain l = false) ∧
    select_similar "streaming analytics"
      [⟨some "T", some "http://[bad", none⟩] simZero 2 = some [] := by
  have h : select_similar "streaming analytics"
      [⟨some "B", some "https://docs.b.com/x", none⟩,
       ⟨some "C", some "https://c.com/2", none⟩] simZero 2 =
      some [⟨some "C", some "https://c.com/2", none⟩] := by
    have hf : filtered_results
        [(⟨some "B", some "https://docs.b.com/x", none⟩ : SearchResult),
         ⟨some "C", some "https://c.com/2", none⟩] =
        [⟨some "C", some "https://c.com/2", none⟩] := by decide
    have hb : build_texts
        [(⟨some "C", some "https://c.com/2", none⟩ : SearchResult)] =
        some ["C "] := by decide
    simp [select_similar, hf, hb, simZero, List.mergeSort_singleton]
  exact select_similar_filter_spec "streaming analytics"
    [⟨some "B", some "https://docs.b.com/x", none⟩,
     ⟨some "C", some "https://c.com/2", none⟩] simZero 2
    [⟨some "C", some "https://c.com/2", none⟩] h

/-- C5: the Entity Aggregator keeps exactly the entities at or above the
relevance threshold, lower-cases identifiers, counts raw occurrences over
the concatenation of all pages' kept identifiers (page-wise additive); in
the two-page scenario (kafka/Kafka/flink and kafka, all above the default
threshold 0.2) the aggregate is kafka=3, flink=1 and the top-1 result is
["kafka"]. -/
theorem extract_entities_threshold_spec :
    (∀ (analyze : String → Except String (List Entity))
        (urls : List SearchResult) (τ : ℚ) (e : String),
      e ∈ kept_entities analyze urls τ ↔
        ∃ r ∈ urls, ∃ l, r.link = some l ∧ ∃ es, analyze l = .ok es ∧
          ∃ ent ∈ es, τ ≤ ent.relevance_score ∧ pyLower ent.id = e) ∧
    (∀ (analyze : String → Except String (List Entity))
        (urls : List SearchResult) (τ : ℚ) (e : String),
      (kept_entities analyze urls τ).count e =
        (urls.map fun r => (page_kept analyze τ r).count e).sum) ∧
    kept_entities an_demo pages_demo 0.2 = ["kafka", "kafka", "flink", "kafka"] ∧
    (kept_entities an_demo pages_demo 0.2).count "kafka" = 3 ∧
    (kept_entities an_demo pages_demo 0.2).count "flink" = 1 ∧
    extract_entities an_demo pages_demo 0.2 1 = ["kafka"] := by
  have hq : decide ((0.2 : ℚ) ≤ (1 : ℚ)) = true := by
    simp only [decide_eq_true_eq]; norm_num
  have hk : pyLower "Kafka" = "kafka" := by decide
  have hk2 : pyLower "kafka" = "kafka" := by decide
  have hf : pyLower "flink" = "flink" := by decide
  have hkept : kept_entities an_demo pages_demo 0.2 =
      ["kafka", "kafka", "flink", "kafka"] := by
    simp [kept_entities, page_kept, an_demo, pages_demo, hq, hk, hk2, hf]
  refine ⟨fun analyze urls τ e => ?_,
    fun analyze urls τ e => count_kept_entities analyze τ e urls, hkept,
    by rw [hkept]; decide, by rw [hkept]; decide, ?_⟩
  · simp [kept_entities, List.mem_flatMap, mem_page_kept]
  · have hu : unique_first ["kafka", "kafka", "flink", "kafka"] =
        ["kafka", "flink"] := by decide
    have hle : decide
        ((["kafka", "kafka", "flink", "kafka"] : List String).count "flink" ≤
          (["kafka", "kafka", "flink", "kafka"] : List String).count "kafka") =
        true := by decide
    rw [extract_entities]
    simp only [hkept, List.isEmpty_cons, if_false, Bool.false_eq_true]
    rw [value_counts_index, hu, mergeSort_pair]
    simp [hle]

/-- C9: when filtering leaves no candidate, the Relevance Selector returns
the empty list (a `some`, i.e. no exception), before any embedding work. -/
theorem select_similar_empty_filtered (topic : String)
    (results : List SearchResult) (sim : String → String → ℚ) (k : Nat)
    (h : filtered_results results = []) :
    select_similar topic results sim k = some [] := by
  simp [select_similar, h]

theorem select_similar_empty_filtered_witness :
    select_similar "streaming analytics"
      [⟨some "B", some "https://docs.b.com/x", none⟩,
       ⟨some "D", none, some "d"⟩,
       ⟨some "E", some "", none⟩] simZero 3 = some [] :=
  select_similar_empty_filtered "streaming analytics"
    [⟨some "B", some "https://docs.b.com/x", none⟩,
     ⟨some "D", none, some "d"⟩,
     ⟨some "E", some "", none⟩] simZero 3 (by decide)

/-- C10: the Relevance Selector raises (`none`) on a result that survives
the link filter but has no `title` key, while a missing `snippet` alone is
harmless: the selector is total only when every filtered result has a
title. -/
theorem select_similar_missing_title :
    select_similar "streaming analytics"
        [⟨none, some "https://example.com/a", none⟩] simZero 3 = none ∧
    select_similar "streaming analytics"
        [⟨some "A", some "https://example.com/a", none⟩] simZero 3 =
      some [⟨some "A", some "https://example.com/a", none⟩] := by
  constructor
  · have h1 : filtered_results
        [(⟨none, some "https://example.com/a", none⟩ : SearchResult)] =
        [⟨none, some "https://example.com/a", none⟩] := by decide
    have h2 : build_texts
        [(⟨none, some "https://example.com/a", none⟩ : SearchResult)] = none := by
      decide
    simp [select_similar, h1, h2]
  · have h1 : filtered_results
        [(⟨some "A", some "https://example.com/a", none⟩ : SearchResult)] =
        [⟨some "A", some "https://example.com/a", none⟩] := by decide
    have h2 : build_texts
        [(⟨some "A", some "https://example.com/a", none⟩ : SearchResult)] =
        some ["A "] := by decide
    simp [select_similar, h1, h2, simZero, List.mergeSort_singleton]

end ContentGen
